import Mathlib

/-!
Verification development for the Fog-Unveiled ETL extraction core.

Strings from the Python source are shallowly embedded as `List Char`
(`Str`); the embedding is scoped to the ASCII texts the pipeline handles
(so `str.isnumeric` becomes "all decimal digits", `\w` becomes
"alphanumeric or underscore", `str.strip()` strips the six ASCII
whitespace characters, and `str.lower` is `Char.toLower`).  Regular
expressions used by the source are embedded as explicit search functions
that mirror the backtracking priorities of the concrete pattern
(greedy/lazy quantifiers), not as a general regex engine.

Module map:
- `src/src/oryx_equipment_loss/utils.py` : `pysplit` (Python `str.split`),
  `pystrip`, `series_splitter`, `multisplit`.
- `src/src/oryx_equipment_loss/transform/case_parser.py` : `CaseParser`
  namespace (`causes`, `ids`, `statuses`, `STATUS_OPTIONS`).
- `src/src/oryx_equipment_loss/transform/equipment_model.py` :
  `EquipmentModelP` namespace (`country_of_production`).
- `src/src/oryx_equipment_loss/transform/correction.py` : `autoid`,
  `set_attachments1`.
- `src/src/rulebook.py` : `rbValidate`, `runValidate`.
- `src/src/oryx_equipment_loss/transform/oryx_parser.py` : `categories`,
  `casesPipeline`.
-/

/-- Texts are embedded as lists of characters. -/
abbrev Str := List Char

/-- Convenience conversion from a Lean string literal to `Str`. -/
def lit (x : String) : Str := x.toList

/-- First `some` result of `f` over a list, in order.  Used to embed
Python control flow that commits to the first success (a `for` loop with
an early return, or a backtracking regex trying alternatives in priority
order). -/
def firstSome (f : α → Option β) : List α → Option β
  | [] => none
  | a :: t =>
    match f a with
    | some b => some b
    | none => firstSome f t

/-- Substring test: Python's `pat in text`. -/
def containsSub : Str → Str → Bool
  | [], pat => pat.isEmpty
  | c :: t, pat => pat.isPrefixOf (c :: t) || containsSub t pat

/-- Index of the leftmost occurrence of `pat` (Python `str.find` for a
found pattern), `none` when `pat` does not occur. -/
def findSub (pat : Str) : Str → Option Nat
  | [] => if pat.isEmpty then some 0 else none
  | c :: t =>
    if pat.isPrefixOf (c :: t) then some 0
    else (findSub pat t).map (· + 1)

/-- The six ASCII whitespace characters stripped by Python `str.strip()`. -/
def isPySpace (c : Char) : Bool :=
  c == ' ' || c == '\t' || c == '\n' || c == '\r' || c == '\u000b' || c == '\u000c'

/-- Python `str.strip()` restricted to ASCII whitespace. -/
def pystrip (x : Str) : Str :=
  ((x.dropWhile isPySpace).reverse.dropWhile isPySpace).reverse

/-- Recursion core of Python `text.split(sep)`: scan left to right; at a
separator occurrence cut and continue after it, otherwise keep the
character on the current piece.  The fuel argument only bounds the number
of steps (each step consumes at least one character), making the
recursion structural; with fuel `x.length + 1` the zero-fuel case is
unreachable. -/
def pysplitFuel (sep : Str) : Nat → Str → List Str
  | 0, x => [x]
  | _ + 1, [] => [[]]
  | fuel + 1, c :: rest =>
    if sep ≠ [] ∧ sep.isPrefixOf (c :: rest) then
      [] :: pysplitFuel sep fuel ((c :: rest).drop sep.length)
    else
      match pysplitFuel sep fuel rest with
      | [] => [[c]]
      | g :: gs => (c :: g) :: gs

/-- Python `text.split(sep)` for a nonempty separator: leftmost-first,
non-overlapping occurrences; the result always has at least one piece. -/
def pysplit (sep : Str) (x : Str) : List Str :=
  pysplitFuel sep (x.length + 1) x

/-- Python `str.isnumeric` on ASCII text: nonempty and all decimal digits. -/
def isnumeric (t : Str) : Bool := !t.isEmpty && t.all Char.isDigit

/-- Python `int(...)` on a string of decimal digits. -/
def pyint (t : Str) : Nat :=
  t.foldl (fun acc c => acc * 10 + (c.toNat - '0'.toNat)) 0

/-- The conjunction words tried by `series_splitter`
(`src/src/oryx_equipment_loss/utils.py` line 86), in order. -/
def CONJUNCTIONS : List Str := [lit "and", lit "nor", lit "but", lit "or"]

/-- The conjunction-resolution loop of `series_splitter` (utils.py lines
86-97): for the first conjunction that applies to the last item, either
strip a leading `"conj "` or split on `" conj "`; at most one conjunction
is resolved. -/
def conjFix : List Str → List Str → List Str
  | [], items => items
  | conj :: rest, items =>
    match items.getLast? with
    | none => items
    | some lastI =>
      if (conj ++ [' ']).isPrefixOf lastI then
        items.dropLast ++ [lastI.drop (conj.length + 1)]
      else if containsSub lastI ([' '] ++ conj ++ [' ']) then
        items.dropLast ++ (pysplit ([' '] ++ conj ++ [' ']) lastI).map pystrip
      else conjFix rest items

/-- `series_splitter` (utils.py lines 72-98) with the default `,`
delimiter: split on `", "`, strip each item, then resolve one trailing
conjunction on the last item. -/
def series_splitter (text : Str) : List Str :=
  conjFix CONJUNCTIONS ((pysplit (lit ", ") text).map pystrip)

/-- `multisplit` (utils.py lines 101-115): recursively split on an ordered
list of delimiters, stripping leaf tokens.  The source indexes
`delimiters[0]` so it is never called on an empty delimiter list; that
unreachable case is embedded as `[]`. -/
def multisplit (delims : List Str) (text : Str) : List Str :=
  match delims with
  | [] => []
  | [d] => (pysplit d text).map pystrip
  | d :: rest => (pysplit d text).flatMap (multisplit rest)

/-- A record of `src/src/oryx_equipment_loss/case.py`.  `model` is kept as
a plain `Str` because every stage reaching the corrections has had it set
by `EquipmentModelParser.__iter__`; `model_case_id` values produced by the
code are parsed decimal integers, embedded as `Nat`. -/
structure Case where
  model_case_id : Nat
  asset_status : List Str
  confirmation_url : Option Str
  cause : Option (List Str)
  asset_category : Option Str
  model : Str
  country_of_loss : Option Str
  country_of_production : Option Str
  attachment : Option Str
deriving DecidableEq

/-- A concrete record with only the model set, used to instantiate
theorems on concrete inputs. -/
def mkCase (m : Str) : Case :=
  { model_case_id := 0
    asset_status := []
    confirmation_url := none
    cause := none
    asset_category := none
    model := m
    country_of_loss := none
    country_of_production := none
    attachment := none }

namespace CaseParser

/-- Lazy-group search of `^with (.+?),` after the literal `"with "` has
been consumed: the group takes at least one character (`r` is its first),
then extends to the first comma of the remainder. -/
def withGroupAt : Str → Option Str
  | [] => none
  | c0 :: rtail =>
    match findSub [','] rtail with
    | some j => some (c0 :: rtail.take j)
    | none => none

/-- Group 1 of `re.match(r"^with (.+?),", text)` (case_parser.py line 52,
DOTALL): requires the text to begin with `"with "`, then the lazy group is
everything up to the first comma after at least one group character. -/
def withMatchGroup (text : Str) : Option Str :=
  if (lit "with ").isPrefixOf text then withGroupAt (text.drop 5) else none

/-- Group 1 of `re.match(r".*by (.+)$", text)` (case_parser.py line 53,
DOTALL): thanks to the greedy `.*`, the group is the (nonempty) remainder
after the rightmost occurrence of `"by "` that leaves a nonempty
remainder.  The recursion prefers the match found in the tail. -/
def byMatchGroup : Str → Option Str
  | [] => none
  | c :: t =>
    match byMatchGroup t with
    | some g => some g
    | none =>
      if (lit "by ").isPrefixOf (c :: t) ∧ t.drop 2 ≠ [] then some (t.drop 2)
      else none

/-- `CaseParser.causes` (case_parser.py lines 55-72): branch on the
presence of the `" with "` / `" by "` markers; a failed regex match raises
`AttributeError`, caught and turned into `None` — embedded as
`Option.map` over the match group. -/
def causes (text : Str) : Option (List Str) :=
  if containsSub text (lit " with ") then (withMatchGroup text).map series_splitter
  else if containsSub text (lit " by ") then (byMatchGroup text).map series_splitter
  else none

/-- `CaseParser.ids` (case_parser.py lines 74-87): accumulate `int(item)`
for each leading numeric item into a set; the first non-numeric item
breaks the loop, discarding everything gathered after it would have been. -/
def ids : List Str → Finset Nat
  | [] => ∅
  | it :: rest => if isnumeric it then insert (pyint it) (ids rest) else ∅

/-- `CaseParser.STATUS_OPTIONS` (case_parser.py lines 89-99), in source
order. -/
def STATUS_OPTIONS : List Str :=
  [lit "abandoned", lit "captured", lit "damaged", lit "destroyed",
   lit "raised", lit "scuttled", lit "stripped", lit "sunk",
   lit "beyond economical repair"]

/-- `CaseParser.statuses` (case_parser.py lines 101-111): keep each
vocabulary word that occurs in the text, in vocabulary order. -/
def statuses (text : Str) : List Str :=
  STATUS_OPTIONS.filter (fun w => containsSub text w)

end CaseParser

/-- The clause that follows the final occurrence of the spaced marker
`" by "`.  Modelled from the claim's words ("the clause following the
final \" by \"") for comparison against the code's `byMatchGroup`. -/
def afterFinalSpacedBy : Str → Option Str
  | [] => none
  | c :: t =>
    match afterFinalSpacedBy t with
    | some g => some g
    | none =>
      if (lit " by ").isPrefixOf (c :: t) then some (t.drop 3)
      else none

namespace EquipmentModelP

/-- Python `\w` on ASCII text: alphanumeric or underscore. -/
def isWordChar (c : Char) : Bool := c.isAlphanum || c == '_'

/-- Search for the lazy qualifier `(_.+?)?` in the present branch: the
first underscore is consumed, `r` is the rest; try the shortest nonempty
qualifier body `j ≥ 1` such that `".svg/"` follows and leaves a nonempty
remainder (`.+$`).  On success the already-fixed country group `C` is
returned. -/
def qualifierSearch (C : Str) (r : Str) : Option Str :=
  firstSome
    (fun j =>
      if (lit ".svg/").isPrefixOf (r.drop j) ∧ r.drop (j + 5) ≠ [] then some C
      else none)
    ((List.range r.length).map (· + 1))

/-- Qualifier-absent branch: `".svg/"` must follow the country group
directly, with a nonempty remainder. -/
def absentCheck (C : Str) (rest : Str) : Option Str :=
  if (lit ".svg/").isPrefixOf rest ∧ rest.drop 5 ≠ [] then some C else none

/-- The qualifier group `(_.+?)?` in its present branch: it must start
with an underscore; the rest is searched lazily. -/
def qualifierTry (C rest : Str) : Option Str :=
  match rest with
  | [] => none
  | c0 :: r => if c0 = '_' then qualifierSearch C r else none

/-- One candidate length `k` for the greedy `[\w]+` group: the qualifier
group is greedy, so its present branch is tried before the absent one. -/
def countryInner (s0 : Str) (k : Nat) : Option Str :=
  match qualifierTry (s0.take k) (s0.drop k) with
  | some c => some c
  | none => absentCheck (s0.take k) (s0.drop k)

/-- Match `(?P<country>[\w]+)(_.+?)?\.svg\/.+$` at `s0`, with the engine's
priorities: the greedy `[\w]+` tries the longest word-character run
first (`k` descends from the maximal run length to 1). -/
def countryAt (s0 : Str) : Option Str :=
  firstSome (fun d => countryInner s0 ((s0.takeWhile isWordChar).length - d))
    (List.range (s0.takeWhile isWordChar).length)

/-- Match `(the_)?(?P<country>[\w]+)(_.+?)?\.svg\/.+$` at `s0`: the greedy
optional `(the_)?` is tried present-first. -/
def matchTail (s0 : Str) : Option Str :=
  if (lit "the_").isPrefixOf s0 then
    match countryAt (s0.drop 4) with
    | some c => some c
    | none => countryAt s0
  else countryAt s0

/-- `re.match` of `national_flag_url_pattern` (equipment_model.py lines
51-52) returning the `country` group: the greedy leading `^.+` makes the
engine use the rightmost position of `"/Flag_of_"` whose continuation
matches, and `^.+` forces that position to be at least 1. -/
def flagMatch (url : Str) : Option Str :=
  firstSome
    (fun d =>
      if (lit "/Flag_of_").isPrefixOf (url.drop (url.length - d)) then
        matchTail (url.drop (url.length - d + 9))
      else none)
    (List.range url.length)

/-- The `.replace('_', ' ').lower()` post-processing of the matched
country group (equipment_model.py lines 63-64). -/
def countryTransform (c : Str) : Str :=
  c.map (fun ch => if ch == '_' then ' ' else ch.toLower)

/-- `EquipmentModelParser.country_of_production` (equipment_model.py lines
54-69): transform the matched group; a failed match raises
`AttributeError`, caught and turned into `None`. -/
def country_of_production (url : Str) : Option Str :=
  (flagMatch url).map countryTransform

/-- Declarative reading of the marker pattern: `url` decomposes as a
nonempty head, the literal `"/Flag_of_"`, an optional `"the_"`, the
nonempty all-word-character country token `c`, an optional underscore-led
qualifier, the literal `".svg/"`, and a nonempty tail. -/
def HasFlagMarkerWith (url c : Str) : Prop :=
  c ≠ [] ∧ (∀ ch ∈ c, isWordChar ch = true) ∧
    ∃ A t q E, A ≠ [] ∧ E ≠ [] ∧
      (t = [] ∨ t = lit "the_") ∧
      (q = [] ∨ ∃ D, D ≠ [] ∧ q = '_' :: D) ∧
      url = A ++ lit "/Flag_of_" ++ t ++ c ++ q ++ lit ".svg/" ++ E

/-- A URL contains the marker pattern somewhere. -/
def HasFlagMarker (url : Str) : Prop := ∃ c, HasFlagMarkerWith url c

/-- The first URL example from equipment_model.py lines 44-46. -/
def sovietUrl : Str :=
  lit "https://upload.wikimedia.org/wikipedia/commons/thumb/a/a9/Flag_of_the_Soviet_Union.svg/23px-Flag_of_the_Soviet_Union.svg.png"

end EquipmentModelP

/-- Position of the lazy `" with "` marker in the `set_attachments` regex
`^(?P<model>.+?)(?P<clause_start> with )(?P<attachment>.*)$`
(correction.py lines 45-48): the first occurrence of `" with "` at index
at least 1 (the lazy `.+?` model group needs one character). -/
def withSplit (m : Str) : Option Nat :=
  (findSub (lit " with ") (m.drop 1)).map (· + 1)

/-- Per-record body of the `set_attachments` wrapper (correction.py lines
52-63): on a match, emit a copy with the model truncated before the
marker and the attachment set to the text after it; otherwise pass the
record through unchanged. -/
def set_attachments1 (c : Case) : Case :=
  match withSplit c.model with
  | some i => { c with model := c.model.take i, attachment := some (c.model.drop (i + 6)) }
  | none => c

/-- The model value after the attachment correction. -/
def stripModel (m : Str) : Str :=
  match withSplit m with
  | some i => m.take i
  | none => m

/-- The loop of the `autoid` wrapper (correction.py lines 27-35) with the
counter dictionary made explicit: absent keys read as 1 (the `not in`
branch), the emitted record carries the current count, and the key's
count is incremented after the yield. -/
def autoidFrom (counts : Str → Nat) : List Case → List Case
  | [] => []
  | c :: rest =>
    let n := counts c.model
    { c with model_case_id := n } ::
      autoidFrom (fun m => if m = c.model then n + 1 else counts m) rest

/-- `autoid` (correction.py lines 20-37): each invocation of the wrapper
allocates a fresh `model_counts = {}`. -/
def autoid (l : List Case) : List Case := autoidFrom (fun _ => 1) l

/-- The list `[a, a+1, ..., a+n-1]`: the claims' "exactly 1..N in emission
order" is `consecutiveFrom 1 N`. -/
def consecutiveFrom : Nat → Nat → List Nat
  | _, 0 => []
  | a, n + 1 => a :: consecutiveFrom (a + 1) n

/-- A rule of `src/src/rulebook.py`: `none` is a pass, `some reason` is
the `AssertionError` message the rule raises. -/
abbrev Rule := Case → Option Str

/-- `RuleBook.validate` (rulebook.py lines 20-22): run the rules in order;
the first failure raises, carrying its reason. -/
def rbValidate (rules : List Rule) (c : Case) : Option Str :=
  firstSome (fun r => r c) rules

/-- The reason-tracker update of the `validate` wrapper (rulebook.py lines
52-54): initialize an absent key to 0 and increment — net effect,
increment-or-append-1, preserving dict insertion order. -/
def bump : List (Str × Nat) → Str → List (Str × Nat)
  | [], e => [(e, 1)]
  | (k, v) :: t, e => if k = e then (k, v + 1) :: t else (k, v) :: bump t e

/-- Dict read with default 0. -/
def lookupD : List (Str × Nat) → Str → Nat
  | [], _ => 0
  | (k, v) :: t, e => if k = e then v else lookupD t e

/-- Dict write `d[k] = v`: replace in place or append. -/
def setKey : List (Str × Nat) → Str → Nat → List (Str × Nat)
  | [], k, v => [(k, v)]
  | (k0, v0) :: t, k, v => if k0 = k then (k0, v) :: t else (k0, v0) :: setKey t k v

/-- The stream loop of the `validate` wrapper (rulebook.py lines 42-56):
failing records are tallied and dropped, passing records are re-emitted. -/
def runValidateFrom (rules : List Rule) (tracker : List (Str × Nat)) :
    List Case → List Case × List (Str × Nat)
  | [] => ([], tracker)
  | c :: rest =>
    match rbValidate rules c with
    | some e => runValidateFrom rules (bump tracker e) rest
    | none =>
      let p := runValidateFrom rules tracker rest
      (c :: p.1, p.2)

/-- Result of one `validate` wrapper invocation: the kept records, the
reason buckets, the total failure count, and the summary (rulebook.py
lines 58-62) — present exactly when the total exceeds zero, and carrying
the buckets plus the `"total"` entry. -/
structure VResult where
  kept : List Case
  tracker : List (Str × Nat)
  total : Nat
  summary : Option (List (Str × Nat))
deriving DecidableEq

/-- One invocation of the `validate` wrapper (rulebook.py lines 39-63):
the tracker starts empty, `total` is the sum of the bucket counts, and
the summary is logged only when `total > 0`. -/
def runValidate (rules : List Rule) (l : List Case) : VResult :=
  let p := runValidateFrom rules [] l
  let total := (p.2.map (fun kv => kv.2)).sum
  { kept := p.1
    tracker := p.2
    total := total
    summary := if 0 < total then some (setKey p.2 (lit "total") total) else none }

/-- The correction chain applied to the raw case stream by the decorators
on `OryxParser.cases` (oryx_parser.py lines 223-226), innermost first:
`set_attachments`, then `autoid`. -/
def correctedCases (l : List Case) : List Case :=
  autoid (l.map set_attachments1)

/-- Fatal errors of the parser chain root. -/
inductive PErr
  | valueError (msg : Str)
  | indexError
deriving DecidableEq

/-- `OryxParser.categories` (oryx_parser.py lines 206-221) over a document
embedded as the list of its top-level `div` sections, each carrying its
`h3` texts: `'ukraine'` selects section 1, `'russia'` selects section 7,
anything else raises `ValueError`; a missing section raises `IndexError`.
The `category_header_regex` filter is kept abstract as the predicate
`headerKeep` since no claim depends on it. -/
def categories (headerKeep : Str → Bool) (doc : List (List Str)) (sel : Str) :
    Except PErr (List Str) :=
  if sel = lit "ukraine" then
    match doc.get? 1 with
    | some ds => .ok (ds.filter headerKeep)
    | none => .error .indexError
  else if sel = lit "russia" then
    match doc.get? 7 with
    | some ds => .ok (ds.filter headerKeep)
    | none => .error .indexError
  else .error (.valueError (lit "Not a valid belligerent: " ++ sel))

/-- The raw `cases` generator body (oryx_parser.py lines 226-237): the
`categories` call happens outside the per-category `try`, so its error
propagates before any record is yielded; the per-category subtree
(`AssetCategoryParser` and below) is abstracted as a total stream
`perCat` because its exceptions are caught and logged in the loop.  Each
yielded record is stamped with the country of loss. -/
def casesRaw (perCat : Str → List Case) (headerKeep : Str → Bool)
    (doc : List (List Str)) (sel : Str) : Except PErr (List Case) :=
  match categories headerKeep doc sel with
  | .error e => .error e
  | .ok cats =>
    .ok (cats.flatMap (fun t => (perCat t).map (fun c => { c with country_of_loss := some sel })))

/-- The fully decorated `OryxParser.cases` (oryx_parser.py lines 223-226):
corrections, then validation.  An error from the raw stage propagates and
no record/summary pair is produced. -/
def casesPipeline (perCat : Str → List Case) (headerKeep : Str → Bool)
    (rules : List Rule) (doc : List (List Str)) (sel : Str) :
    Except PErr (List Case × Option (List (Str × Nat))) :=
  match casesRaw perCat headerKeep doc sel with
  | .error e => .error e
  | .ok l =>
    let r := runValidate rules (correctedCases l)
    .ok (r.kept, r.summary)

/-- An occurrence of the unanchored marker `"by "` in `x` with the
(nonempty) remainder `g`. -/
def OccBy (x g : Str) : Prop := (∃ A, x = A ++ lit "by " ++ g) ∧ g ≠ []

/-- A process store recording every counter dictionary and reason tracker
ever allocated, to make per-invocation allocation explicit for the
freshness claim: cell addresses are list indices. -/
structure Store where
  counterCells : List (Str → Nat)
  trackerCells : List (List (Str × Nat))

/-- One `autoid` loop step on the store: read the counter dictionary in
cell `a`, and write it back with the emitted record's key incremented. -/
def autoidStep (a : Nat) (c : Case) (st : Store) : Store :=
  { st with
    counterCells := st.counterCells.set a
      (fun k => if k = c.model
        then (st.counterCells.getD a (fun _ => 1)) c.model + 1
        else (st.counterCells.getD a (fun _ => 1)) k) }

/-- The `autoid` wrapper loop threading its counter dictionary through
store cell `a` (every read and write goes through the store). -/
def autoidStore (a : Nat) : Store → List Case → List Case × Store
  | st, [] => ([], st)
  | st, c :: rest =>
    ({ c with model_case_id := (st.counterCells.getD a (fun _ => 1)) c.model }
        :: (autoidStore a (autoidStep a c st) rest).1,
      (autoidStore a (autoidStep a c st) rest).2)

/-- The `validate` wrapper loop threading its reason tracker through store
cell `a`. -/
def validateStore (rules : List Rule) (a : Nat) : Store → List Case → List Case × Store
  | st, [] => ([], st)
  | st, c :: rest =>
    match rbValidate rules c with
    | some e =>
      let t := st.trackerCells.getD a []
      validateStore rules a { st with trackerCells := st.trackerCells.set a (bump t e) } rest
    | none =>
      let p := validateStore rules a st rest
      (c :: p.1, p.2)

/-- One pipeline run over the store: as in the source, entering the
`autoid` wrapper allocates a fresh `model_counts = {}` (a new cell) and
entering the `validate` wrapper allocates a fresh `reason_tracker = {}`;
neither is a process-wide singleton. -/
def pipelineRunStore (rules : List Rule) (st : Store) (l : List Case) : List Case × Store :=
  let l1 := l.map set_attachments1
  let a := st.counterCells.length
  let st1 : Store := { st with counterCells := st.counterCells ++ [fun _ => 1] }
  let p := autoidStore a st1 l1
  let b := p.2.trackerCells.length
  let st3 : Store := { p.2 with trackerCells := p.2.trackerCells ++ [[]] }
  validateStore rules b st3 p.1

/-! ## Generic lemmas about the helper functions -/

theorem firstSome_eq_some {f : α → Option β} :
    ∀ {l : List α} {b : β}, firstSome f l = some b → ∃ a ∈ l, f a = some b := by
  intro l
  induction l with
  | nil => intro b h; simp [firstSome] at h
  | cons a t ih =>
    intro b h
    rw [firstSome] at h
    cases hfa : f a with
    | some b0 => rw [hfa] at h; exact ⟨a, List.mem_cons_self a t, hfa.trans h⟩
    | none =>
      rw [hfa] at h
      obtain ⟨a', ha', hfa'⟩ := ih h
      exact ⟨a', List.mem_cons_of_mem a ha', hfa'⟩

theorem isPrefixOf_iff_exists {p l : Str} : p.isPrefixOf l = true ↔ ∃ r, l = p ++ r := by
  rw [List.isPrefixOf_iff_prefix]
  constructor
  · rintro ⟨r, hr⟩; exact ⟨r, hr.symm⟩
  · rintro ⟨r, hr⟩; exact ⟨r, hr.symm⟩

theorem ite_some_elim {P : Prop} [Decidable P] {x : Option β} {b : β}
    (h : (if P then x else none) = some b) : P ∧ x = some b := by
  by_cases hP : P
  · rw [if_pos hP] at h
    exact ⟨hP, h⟩
  · rw [if_neg hP] at h
    cases h

theorem findSub_some {pat : Str} :
    ∀ {x : Str} {i : Nat}, findSub pat x = some i → ∃ A B, x = A ++ pat ++ B ∧ A.length = i := by
  intro x
  induction x with
  | nil =>
    intro i h
    rw [findSub] at h
    by_cases hp : pat.isEmpty = true
    · rw [if_pos hp] at h
      have hi : (0 : Nat) = i := Option.some.inj h
      have hpat : pat = [] := List.isEmpty_iff.mp hp
      exact ⟨[], [], by simp [hpat], hi⟩
    · rw [if_neg hp] at h
      cases h
  | cons c t ih =>
    intro i h
    rw [findSub] at h
    by_cases hp : pat.isPrefixOf (c :: t) = true
    · rw [if_pos hp] at h
      have hi : (0 : Nat) = i := Option.some.inj h
      obtain ⟨r, hr⟩ := isPrefixOf_iff_exists.mp hp
      exact ⟨[], r, by simpa using hr, hi⟩
    · rw [if_neg hp, Option.map_eq_some'] at h
      obtain ⟨j, hj, hji⟩ := h
      obtain ⟨A, B, hAB, hlen⟩ := ih hj
      exact ⟨c :: A, B, by simp [hAB], by simp [hlen, hji]⟩

theorem findSub_none {pat : Str} :
    ∀ {x : Str}, findSub pat x = none → ∀ A B, x ≠ A ++ pat ++ B := by
  intro x
  induction x with
  | nil =>
    intro h A B hx
    rw [findSub] at h
    by_cases hp : pat.isEmpty = true
    · rw [if_pos hp] at h
      cases h
    · have hpat : pat ≠ [] := by
        intro hh
        subst hh
        simp at hp
      have hlen := congrArg List.length hx
      rw [List.length_append, List.length_append] at hlen
      simp only [List.length_nil] at hlen
      have hl0 : pat.length = 0 := by omega
      exact hpat (List.length_eq_zero.mp hl0)
  | cons c t ih =>
    intro h A B hx
    rw [findSub] at h
    by_cases hp : pat.isPrefixOf (c :: t) = true
    · rw [if_pos hp] at h
      cases h
    · rw [if_neg hp] at h
      rw [Option.map_eq_none'] at h
      cases A with
      | nil =>
        apply hp
        rw [isPrefixOf_iff_exists]
        exact ⟨B, by simpa using hx⟩
      | cons a A' =>
        have h3 := hx
        simp only [List.cons_append] at h3
        exact ih h A' B (List.cons.inj h3).2

/-! ## Claim C1 / C10 machinery: per-key renumbering -/

theorem autoidFrom_filter (k : Str) :
    ∀ (l : List Case) (counts : Str → Nat),
      ((autoidFrom counts l).filter (fun c => decide (c.model = k))).map
          (fun c => c.model_case_id)
        = consecutiveFrom (counts k) (l.countP (fun c => decide (c.model = k))) := by
  intro l
  induction l with
  | nil => intro counts; simp [autoidFrom, consecutiveFrom]
  | cons c rest ih =>
    intro counts
    rw [autoidFrom, List.countP_cons]
    by_cases hm : c.model = k
    · subst hm
      simp only [List.filter_cons, List.map_cons, decide_True, if_true]
      rw [ih]
      simp [consecutiveFrom]
    · have hpc : decide (c.model = k) = false := by simp [hm]
      simp only [List.filter_cons, hpc, hm, decide_False, Bool.false_eq_true, if_false]
      rw [ih]
      simp [Ne.symm hm, hpc]

theorem autoidFrom_map_id :
    ∀ (l l' : List Case) (counts : Str → Nat),
      l.map (fun c => c.model) = l'.map (fun c => c.model) →
      (autoidFrom counts l).map (fun c => c.model_case_id)
        = (autoidFrom counts l').map (fun c => c.model_case_id) := by
  intro l
  induction l with
  | nil =>
    intro l' counts h
    cases l' with
    | nil => rfl
    | cons c' t' => simp at h
  | cons c t ih =>
    intro l' counts h
    cases l' with
    | nil => simp at h
    | cons c' t' =>
      simp only [List.map_cons, List.cons.injEq] at h
      obtain ⟨hc, ht⟩ := h
      rw [autoidFrom, autoidFrom]
      simp only [List.map_cons]
      congr 1
      · show counts c.model = counts c'.model
        rw [hc]
      · have hfun : (fun m => if m = c.model then counts c.model + 1 else counts m)
             = (fun m => if m = c'.model then counts c'.model + 1 else counts m) := by
          funext m; rw [hc]
        rw [hfun]
        exact ih t' _ ht

/-- Claim C1: the renumbering correction stage (`autoid`, correction.py
lines 20-37) assigns, to the records sharing any grouping key `k` (the
record's model name), exactly the identifiers `1..N` in emission order;
and the assignment depends only on the stream of model names, not on the
raw tree-extracted identifiers the records carried. -/
theorem c1_autoid_per_key_renumbering :
    ∀ (l : List Case) (k : Str),
      ((autoid l).filter (fun c => decide (c.model = k))).map (fun c => c.model_case_id)
          = consecutiveFrom 1 (l.countP (fun c => decide (c.model = k)))
      ∧ ∀ l' : List Case,
          l.map (fun c => c.model) = l'.map (fun c => c.model) →
          (autoid l).map (fun c => c.model_case_id)
            = (autoid l').map (fun c => c.model_case_id) := by
  intro l k
  exact ⟨autoidFrom_filter k l (fun _ => 1),
         fun l' h => autoidFrom_map_id l l' (fun _ => 1) h⟩

theorem c1_witness :
    (autoid [{ mkCase (lit "A") with model_case_id := 99 },
             { mkCase (lit "B") with model_case_id := 99 },
             { mkCase (lit "A") with model_case_id := 4 }]).map (fun c => c.model_case_id)
      = (autoid [mkCase (lit "A"), mkCase (lit "B"),
                 { mkCase (lit "A") with model_case_id := 7 }]).map (fun c => c.model_case_id) :=
  (c1_autoid_per_key_renumbering
      [{ mkCase (lit "A") with model_case_id := 99 },
       { mkCase (lit "B") with model_case_id := 99 },
       { mkCase (lit "A") with model_case_id := 4 }] (lit "A")).2
    [mkCase (lit "A"), mkCase (lit "B"), { mkCase (lit "A") with model_case_id := 7 }]
    (by decide)

theorem model_set_attachments1 (c : Case) :
    (set_attachments1 c).model = stripModel c.model := by
  cases h : withSplit c.model with
  | none => simp [set_attachments1, stripModel, h]
  | some i => simp [set_attachments1, stripModel, h]

/-- Claim C10: in the assembled pipeline (`@validate @autoid
@set_attachments def cases`, oryx_parser.py lines 223-226) the
clause-extraction stage runs before the renumbering stage, so `autoid`
groups by the attachment-stripped model: for every input stream the
identifiers emitted for key `k` are `1..N` where `N` counts input records
whose *stripped* model is `k`; in particular raw descriptors `"X"` and
`"X with Y"` draw 1 and 2 from one shared counter for key `"X"`. -/
theorem c10_corrections_ordered :
    (∀ (l : List Case) (k : Str),
        ((correctedCases l).filter (fun c => decide (c.model = k))).map
            (fun c => c.model_case_id)
          = consecutiveFrom 1 (l.countP (fun c => decide (stripModel c.model = k))))
    ∧ (correctedCases [mkCase (lit "X"), mkCase (lit "X with Y")]).map
        (fun c => c.model_case_id) = [1, 2]
    ∧ (correctedCases [mkCase (lit "X"), mkCase (lit "X with Y")]).map
        (fun c => c.model) = [lit "X", lit "X"] := by
  refine ⟨fun l k => ?_, by decide, by decide⟩
  have hp : ((fun c => decide (c.model = k)) ∘ set_attachments1)
      = (fun c => decide (stripModel c.model = k)) := by
    funext c
    simp [Function.comp, model_set_attachments1]
  rw [correctedCases, autoid, autoidFrom_filter k _ (fun _ => 1), List.countP_map, hp]

theorem c10_witness :
    ((correctedCases [mkCase (lit "X with Y")]).filter
        (fun c => decide (c.model = lit "X"))).map (fun c => c.model_case_id)
      = consecutiveFrom 1
          ([mkCase (lit "X with Y")].countP
            (fun c => decide (stripModel c.model = lit "X"))) :=
  c10_corrections_ordered.1 [mkCase (lit "X with Y")] (lit "X")

/-! ## Claim C5: identifier collection -/

/-- Claim C5 counterexample: the token `"0"` is numeric-looking, so the
code collects the identifier `0`, which is not a positive integer — the
claim's "set of positive integers" fails on the code. -/
theorem c5_counterexample :
    CaseParser.ids [lit "0", lit "destroyed"] = {0}
    ∧ ¬ (∀ n ∈ CaseParser.ids [lit "0", lit "destroyed"], 0 < n) := by
  constructor
  · decide
  · intro h
    have := h 0 (by decide)
    omega

/-- Claim C5 (amended): for every token list, `CaseParser.ids` collects
exactly the leading numeric-looking tokens — those preceding the first
non-numeric token — as a duplicate-free set of natural numbers (`"0"`
yields 0, so the values need not be positive); the first non-numeric
token ends collection and later tokens contribute nothing. -/
theorem c5_ids_leading_numeric :
    (∀ (pre : List Str) (x : Str) (post : List Str),
        (∀ t ∈ pre, isnumeric t = true) → isnumeric x = false →
        CaseParser.ids (pre ++ x :: post) = (pre.map pyint).toFinset)
    ∧ (∀ items : List Str,
        (∀ t ∈ items, isnumeric t = true) →
        CaseParser.ids items = (items.map pyint).toFinset) := by
  constructor
  · intro pre
    induction pre with
    | nil =>
      intro x post _ hx
      simp [CaseParser.ids, hx]
    | cons t pre' ih =>
      intro x post hpre hx
      have ht : isnumeric t = true := hpre t (List.mem_cons_self t pre')
      have hpre' : ∀ u ∈ pre', isnumeric u = true :=
        fun u hu => hpre u (List.mem_cons_of_mem t hu)
      simp only [List.cons_append, CaseParser.ids, ht, if_true, List.map_cons,
        List.toFinset_cons]
      exact congrArg (insert (pyint t)) (ih x post hpre' hx)
  · intro items
    induction items with
    | nil => intro _; simp [CaseParser.ids]
    | cons t rest ih =>
      intro h
      have ht : isnumeric t = true := h t (List.mem_cons_self t rest)
      have hrest : ∀ u ∈ rest, isnumeric u = true :=
        fun u hu => h u (List.mem_cons_of_mem t hu)
      simp only [CaseParser.ids, ht, if_true, List.map_cons, List.toFinset_cons]
      rw [ih hrest]

theorem c5_witness :
    CaseParser.ids ([lit "12", lit "3"] ++ lit "destroyed" :: [lit "7"])
      = ([lit "12", lit "3"].map pyint).toFinset :=
  c5_ids_leading_numeric.1 [lit "12", lit "3"] (lit "destroyed") [lit "7"]
    (by decide) (by decide)

/-! ## Claim C6: status detection -/

/-- Claim C6: `CaseParser.statuses` returns exactly the words of the
fixed vocabulary `STATUS_OPTIONS` that occur as substrings of the text,
in the vocabulary's canonical order (a sublist of `STATUS_OPTIONS`), not
the text's order — witnessed by the concrete text `"destroyed and
damaged"` where the appearance order is reversed. -/
theorem c6_statuses_vocabulary_order :
    (∀ text : Str,
        List.Sublist (CaseParser.statuses text) CaseParser.STATUS_OPTIONS
        ∧ ∀ w, w ∈ CaseParser.statuses text
            ↔ w ∈ CaseParser.STATUS_OPTIONS ∧ containsSub text w = true)
    ∧ CaseParser.statuses (lit "destroyed and damaged")
        = [lit "damaged", lit "destroyed"] := by
  refine ⟨fun text => ⟨List.filter_sublist _, fun w => ?_⟩, by decide⟩
  simp [CaseParser.statuses, List.mem_filter]

theorem c6_witness :
    lit "damaged" ∈ CaseParser.statuses (lit "destroyed and damaged") :=
  ((c6_statuses_vocabulary_order.1 (lit "destroyed and damaged")).2
    (lit "damaged")).mpr (by decide)

/-! ## Claim C3: validation filter -/

theorem lookupD_bump_self : ∀ (t : List (Str × Nat)) (e : Str),
    lookupD (bump t e) e = lookupD t e + 1 := by
  intro t e
  induction t with
  | nil => simp [bump, lookupD]
  | cons kv t' ih =>
    obtain ⟨k, v⟩ := kv
    by_cases hk : k = e
    · simp [bump, lookupD, hk]
    · simp [bump, lookupD, hk, ih]

theorem lookupD_bump_ne : ∀ (t : List (Str × Nat)) (e e' : Str), e' ≠ e →
    lookupD (bump t e) e' = lookupD t e' := by
  intro t e e' hne
  induction t with
  | nil =>
    rw [bump, lookupD, lookupD, if_neg (fun h : e = e' => hne h.symm), lookupD]
  | cons kv t' ih =>
    obtain ⟨k, v⟩ := kv
    rw [bump]
    by_cases hk : k = e
    · rw [if_pos hk, lookupD, lookupD,
        if_neg (fun h : k = e' => hne (h.symm.trans hk)),
        if_neg (fun h : k = e' => hne (h.symm.trans hk))]
    · rw [if_neg hk, lookupD, lookupD]
      by_cases hk' : k = e'
      · rw [if_pos hk', if_pos hk']
      · rw [if_neg hk', if_neg hk', ih]

theorem sum_bump : ∀ (t : List (Str × Nat)) (e : Str),
    ((bump t e).map (fun kv => kv.2)).sum = ((t.map (fun kv => kv.2)).sum) + 1 := by
  intro t e
  induction t with
  | nil => simp [bump]
  | cons kv t' ih =>
    obtain ⟨k, v⟩ := kv
    by_cases hk : k = e
    · simp [bump, hk]
      omega
    · simp [bump, hk, ih]
      omega

theorem lookupD_setKey_self : ∀ (t : List (Str × Nat)) (k : Str) (v : Nat),
    lookupD (setKey t k v) k = v := by
  intro t k v
  induction t with
  | nil => simp [setKey, lookupD]
  | cons kv t' ih =>
    obtain ⟨k0, v0⟩ := kv
    by_cases hk : k0 = k
    · simp [setKey, lookupD, hk]
    · simp [setKey, lookupD, hk, ih]

theorem lookupD_setKey_ne : ∀ (t : List (Str × Nat)) (k : Str) (v : Nat) (e : Str), e ≠ k →
    lookupD (setKey t k v) e = lookupD t e := by
  intro t k v e hne
  induction t with
  | nil =>
    rw [setKey, lookupD, lookupD, if_neg (fun h : k = e => hne h.symm), lookupD]
  | cons kv t' ih =>
    obtain ⟨k0, v0⟩ := kv
    rw [setKey]
    by_cases hk : k0 = k
    · rw [if_pos hk, lookupD, lookupD,
        if_neg (fun h : k0 = e => hne (h.symm.trans hk)),
        if_neg (fun h : k0 = e => hne (h.symm.trans hk))]
    · rw [if_neg hk, lookupD, lookupD]
      by_cases hk' : k0 = e
      · rw [if_pos hk', if_pos hk']
      · rw [if_neg hk', if_neg hk', ih]

theorem runValidateFrom_kept (rules : List Rule) :
    ∀ (l : List Case) (t : List (Str × Nat)),
      (runValidateFrom rules t l).1 = l.filter (fun c => (rbValidate rules c).isNone) := by
  intro l
  induction l with
  | nil => intro t; simp [runValidateFrom]
  | cons c rest ih =>
    intro t
    rw [runValidateFrom]
    cases hv : rbValidate rules c with
    | some e => simp [hv, List.filter_cons, ih]
    | none => simp [hv, List.filter_cons, ih]

theorem runValidateFrom_lookup (rules : List Rule) :
    ∀ (l : List Case) (t : List (Str × Nat)) (e : Str),
      lookupD (runValidateFrom rules t l).2 e
        = lookupD t e + l.countP (fun c => decide (rbValidate rules c = some e)) := by
  intro l
  induction l with
  | nil => intro t e; simp [runValidateFrom]
  | cons c rest ih =>
    intro t e
    rw [runValidateFrom, List.countP_cons]
    cases hv : rbValidate rules c with
    | some e0 =>
      by_cases he : e0 = e
      · subst he
        simp only [hv]
        rw [ih]
        rw [lookupD_bump_self]
        simp
        omega
      · simp only [hv]
        rw [ih]
        rw [lookupD_bump_ne t e0 e (fun h => he h.symm)]
        simp [he]
    | none =>
      simp only [hv]
      rw [ih]
      simp

theorem runValidateFrom_sum (rules : List Rule) :
    ∀ (l : List Case) (t : List (Str × Nat)),
      (((runValidateFrom rules t l).2).map (fun kv => kv.2)).sum
        = ((t.map (fun kv => kv.2)).sum)
          + l.countP (fun c => (rbValidate rules c).isSome) := by
  intro l
  induction l with
  | nil => intro t; simp [runValidateFrom]
  | cons c rest ih =>
    intro t
    rw [runValidateFrom, List.countP_cons]
    cases hv : rbValidate rules c with
    | some e0 =>
      simp only [hv]
      rw [ih, sum_bump]
      simp
      omega
    | none =>
      simp only [hv]
      rw [ih]
      simp

theorem rbValidate_of_unique_failure :
    ∀ (rules : List Rule) (c : Case) (e : Str),
      (rules.map (fun r => r c)).filter (fun o => o.isSome) = [some e] →
      rbValidate rules c = some e := by
  intro rules
  induction rules with
  | nil => intro c e h; simp at h
  | cons r rs ih =>
    intro c e h
    rw [rbValidate, firstSome]
    cases hr : r c with
    | some x =>
      simp only [List.map_cons, hr, List.filter_cons] at h
      simp at h
      simp [h.1]
    | none =>
      simp only [List.map_cons, hr, List.filter_cons] at h
      simp at h
      exact ih c e (by simpa [rbValidate] using h)

/-- Claim C3: for every record stream and rulebook, the validation filter
re-emits exactly the records failing zero rules, unchanged and in order;
each failing record contributes exactly one count to the bucket of the
reason it fails with (for a record failing exactly one rule, that rule's
reason — the bridge conjunct); the total equals the number of failing
records; and a single summary carrying every distinct reason's count plus
a `"total"` count is emitted if and only if the total exceeds zero. -/
theorem c3_validate_filter_contract :
    ∀ (rules : List Rule) (l : List Case),
      (runValidate rules l).kept = l.filter (fun c => (rbValidate rules c).isNone)
      ∧ (∀ e, lookupD (runValidate rules l).tracker e
            = l.countP (fun c => decide (rbValidate rules c = some e)))
      ∧ (runValidate rules l).total = l.countP (fun c => (rbValidate rules c).isSome)
      ∧ ((runValidate rules l).summary.isSome = decide (0 < (runValidate rules l).total))
      ∧ (∀ m, (runValidate rules l).summary = some m →
            lookupD m (lit "total") = (runValidate rules l).total
            ∧ ∀ e, e ≠ lit "total" →
                lookupD m e = l.countP (fun c => decide (rbValidate rules c = some e)))
      ∧ (∀ (c : Case) (e : Str),
            (rules.map (fun r => r c)).filter (fun o => o.isSome) = [some e] →
            rbValidate rules c = some e) := by
  intro rules l
  refine ⟨?_, ?_, ?_, ?_, ?_, fun c e h => rbValidate_of_unique_failure rules c e h⟩
  · rw [runValidate]
    exact runValidateFrom_kept rules l []
  · intro e
    rw [runValidate]
    simpa [lookupD] using runValidateFrom_lookup rules l [] e
  · rw [runValidate]
    simpa using runValidateFrom_sum rules l []
  · rw [runValidate]
    by_cases ht : 0 < ((runValidateFrom rules [] l).2.map (fun kv => kv.2)).sum
    · simp [ht]
    · simp [ht]
  · intro m hm
    rw [runValidate] at hm ⊢
    simp only at hm
    by_cases ht : 0 < ((runValidateFrom rules [] l).2.map (fun kv => kv.2)).sum
    · rw [if_pos ht] at hm
      have hm' := Option.some.inj hm
      subst hm'
      constructor
      · simp [lookupD_setKey_self]
      · intro e he
        rw [lookupD_setKey_ne _ _ _ _ he]
        simpa [lookupD] using runValidateFrom_lookup rules l [] e
    · rw [if_neg ht] at hm
      cases hm

theorem c3_witness :
    rbValidate [fun c => if c.model_case_id = 0 then some (lit "zero id") else none]
        (mkCase (lit "A")) = some (lit "zero id") :=
  (c3_validate_filter_contract
      [fun c => if c.model_case_id = 0 then some (lit "zero id") else none]
      [mkCase (lit "A")]).2.2.2.2.2
    (mkCase (lit "A")) (lit "zero id") (by decide)

/-! ## Claim C8: attachment extraction -/

theorem withSplit_some {m : Str} {i : Nat} (h : withSplit m = some i) :
    m.take i ≠ [] ∧ m = m.take i ++ lit " with " ++ m.drop (i + 6) := by
  rw [withSplit, Option.map_eq_some'] at h
  obtain ⟨j, hj, hji⟩ := h
  obtain ⟨A, B, hAB, hlen⟩ := findSub_some hj
  cases m with
  | nil =>
    have hAB' : ([] : Str) = A ++ lit " with " ++ B := by simpa using hAB
    have hlen2 := congrArg List.length hAB'
    rw [List.length_append, List.length_append] at hlen2
    have h6 : (lit " with ").length = 6 := rfl
    rw [h6] at hlen2
    simp only [List.length_nil] at hlen2
    omega
  | cons m0 mrest =>
    have hrest : mrest = A ++ lit " with " ++ B := by simpa using hAB
    have htake : (m0 :: mrest).take i = m0 :: A := by
      have hpos : 0 < j + 1 := by omega
      rw [← hji, hrest, List.take_cons hpos]
      congr 1
      rw [Nat.add_sub_cancel, ← hlen, List.append_assoc]
      exact List.take_left A _
    have hdrop : (m0 :: mrest).drop (i + 6) = B := by
      rw [← hji, hrest]
      have : (j + 1 + 6) = (j + 6) + 1 := by omega
      rw [this, List.drop_succ_cons]
      rw [← hlen, List.append_assoc]
      have h6 : (lit " with ").length = 6 := rfl
      calc (A ++ (lit " with " ++ B)).drop (A.length + 6)
          = (lit " with " ++ B).drop 6 := by rw [List.drop_append]
        _ = B := by rw [← h6]; exact List.drop_left _ B
    refine ⟨by simp [htake], ?_⟩
    rw [htake, hdrop, hrest]
    simp

theorem withSplit_none {m : Str} (h : withSplit m = none) :
    ¬ ∃ pre post, m = pre ++ lit " with " ++ post ∧ pre ≠ [] := by
  rintro ⟨pre, post, hm, hpre⟩
  rw [withSplit, Option.map_eq_none'] at h
  cases pre with
  | nil => exact hpre rfl
  | cons p0 pre' =>
    have : m.drop 1 = pre' ++ lit " with " ++ post := by
      rw [hm]
      simp
    exact findSub_none h pre' post this

/-- Claim C8: the attachment correction (`set_attachments`, correction.py
lines 40-65) is a pure per-record rewrite: when the model descriptor
matches `"{base} with {clause}"` (a nonempty base), the emitted record has
the base as model and the clause as attachment with every other field
unchanged; a non-matching record passes through entirely unchanged.  The
copy-on-write of the source (`copy(case)` before mutation) corresponds to
the embedding being a pure function of the input record. -/
theorem c8_set_attachments_frame :
    ∀ c : Case,
      ((set_attachments1 c).model_case_id = c.model_case_id
        ∧ (set_attachments1 c).asset_status = c.asset_status
        ∧ (set_attachments1 c).confirmation_url = c.confirmation_url
        ∧ (set_attachments1 c).cause = c.cause
        ∧ (set_attachments1 c).asset_category = c.asset_category
        ∧ (set_attachments1 c).country_of_loss = c.country_of_loss
        ∧ (set_attachments1 c).country_of_production = c.country_of_production)
      ∧ ((¬ ∃ pre post, c.model = pre ++ lit " with " ++ post ∧ pre ≠ []) →
          set_attachments1 c = c)
      ∧ ((∃ pre post, c.model = pre ++ lit " with " ++ post ∧ pre ≠ []) →
          ∃ clause, (set_attachments1 c).model ≠ []
            ∧ c.model = (set_attachments1 c).model ++ lit " with " ++ clause
            ∧ (set_attachments1 c).attachment = some clause) := by
  intro c
  refine ⟨?_, ?_, ?_⟩
  · cases h : withSplit c.model with
    | none => simp [set_attachments1, h]
    | some i => simp [set_attachments1, h]
  · intro hno
    cases h : withSplit c.model with
    | none => simp [set_attachments1, h]
    | some i => exact absurd ⟨c.model.take i, c.model.drop (i + 6),
        (withSplit_some h).2, (withSplit_some h).1⟩ hno
  · rintro ⟨pre, post, hm, hpre⟩
    cases h : withSplit c.model with
    | none => exact absurd ⟨pre, post, hm, hpre⟩ (withSplit_none h)
    | some i =>
      refine ⟨c.model.drop (i + 6), ?_, ?_, ?_⟩
      · simp [set_attachments1, h, (withSplit_some h).1]
      · simpa [set_attachments1, h] using (withSplit_some h).2
      · simp [set_attachments1, h]

theorem c8_witness :
    ∃ clause, (set_attachments1 (mkCase (lit "T-72 with mine plow"))).model ≠ []
      ∧ (mkCase (lit "T-72 with mine plow")).model
          = (set_attachments1 (mkCase (lit "T-72 with mine plow"))).model
              ++ lit " with " ++ clause
      ∧ (set_attachments1 (mkCase (lit "T-72 with mine plow"))).attachment = some clause :=
  (c8_set_attachments_frame (mkCase (lit "T-72 with mine plow"))).2.2
    ⟨lit "T-72", lit "mine plow", by decide, by decide⟩

/-! ## Claim C2: cause-clause extraction -/

theorem withMatchGroup_some {x g : Str} (h : CaseParser.withMatchGroup x = some g) :
    ∃ rest, x = lit "with " ++ g ++ [','] ++ rest ∧ g ≠ [] := by
  rw [CaseParser.withMatchGroup] at h
  by_cases hp : (lit "with ").isPrefixOf x = true
  · rw [if_pos hp] at h
    obtain ⟨R, hR⟩ := isPrefixOf_iff_exists.mp hp
    have hdrop : x.drop 5 = R := by
      rw [hR]
      have h5 : (lit "with ").length = 5 := rfl
      rw [← h5]
      exact List.drop_left _ R
    rw [hdrop] at h
    cases R with
    | nil =>
      rw [CaseParser.withGroupAt] at h
      cases h
    | cons c0 rtail =>
      rw [CaseParser.withGroupAt] at h
      cases hf : findSub [','] rtail with
      | none =>
        simp only [hf] at h
        exact Option.noConfusion h
      | some j =>
        simp only [hf] at h
        have hg : g = c0 :: rtail.take j := (Option.some.inj h).symm
        obtain ⟨A, B, hAB, hlen⟩ := findSub_some hf
        have htakeA : rtail.take j = A := by
          rw [hAB, ← hlen, List.append_assoc]
          exact List.take_left A _
        refine ⟨B, ?_, by simp [hg]⟩
        rw [hR, hg, htakeA, hAB]
        simp
  · rw [if_neg hp] at h
    cases h

theorem byMatchGroup_none :
    ∀ {x : Str}, CaseParser.byMatchGroup x = none → ∀ g, ¬ OccBy x g := by
  intro x
  induction x with
  | nil =>
    intro _ g hocc
    obtain ⟨⟨A, hA⟩, hg⟩ := hocc
    have hlen := congrArg List.length hA
    rw [List.length_append, List.length_append] at hlen
    have h3 : (lit "by ").length = 3 := rfl
    rw [h3] at hlen
    simp only [List.length_nil] at hlen
    omega
  | cons c t ih =>
    intro h g hocc
    rw [CaseParser.byMatchGroup] at h
    cases hbt : CaseParser.byMatchGroup t with
    | some g0 =>
      simp only [hbt] at h
      exact Option.noConfusion h
    | none =>
      simp only [hbt] at h
      by_cases hc : (lit "by ").isPrefixOf (c :: t) = true ∧ t.drop 2 ≠ []
      · rw [if_pos hc] at h
        cases h
      · obtain ⟨⟨A, hA⟩, hg⟩ := hocc
        cases A with
        | nil =>
          apply hc
          have hby : lit "by " = ['b', 'y', ' '] := rfl
          have hA' : c :: t = 'b' :: 'y' :: ' ' :: g := by
            rw [hby] at hA
            simpa using hA
          have ht : t = 'y' :: ' ' :: g := (List.cons.inj hA').2
          constructor
          · rw [isPrefixOf_iff_exists]
            exact ⟨g, by simpa using hA⟩
          · rw [ht]
            simpa using hg
        | cons a A' =>
          have h3 := hA
          simp only [List.cons_append] at h3
          exact ih hbt g ⟨⟨A', (List.cons.inj h3).2⟩, hg⟩

theorem byMatchGroup_some :
    ∀ {x g : Str}, CaseParser.byMatchGroup x = some g →
      OccBy x g ∧ ∀ g', ¬ OccBy g g' := by
  intro x
  induction x with
  | nil =>
    intro g h
    rw [CaseParser.byMatchGroup] at h
    cases h
  | cons c t ih =>
    intro g h
    rw [CaseParser.byMatchGroup] at h
    cases hbt : CaseParser.byMatchGroup t with
    | some g0 =>
      simp only [hbt] at h
      have hg : g0 = g := Option.some.inj h
      subst hg
      obtain ⟨⟨⟨A, hA⟩, hne⟩, hfin⟩ := ih hbt
      exact ⟨⟨⟨c :: A, by simp [hA]⟩, hne⟩, hfin⟩
    | none =>
      simp only [hbt] at h
      obtain ⟨⟨hpre, hne⟩, hg⟩ := ite_some_elim h
      have hg' : t.drop 2 = g := Option.some.inj hg
      obtain ⟨R, hR⟩ := isPrefixOf_iff_exists.mp hpre
      have hby : lit "by " = ['b', 'y', ' '] := rfl
      have hA' : c :: t = 'b' :: 'y' :: ' ' :: R := by
        rw [hby] at hR
        simpa using hR
      have ht : t = 'y' :: ' ' :: R := (List.cons.inj hA').2
      have hRg : R = g := by
        rw [← hg', ht]
        simp
      constructor
      · refine ⟨⟨[], ?_⟩, by rw [← hg']; exact hne⟩
        rw [hR, hRg]
        simp
      · intro g' hocc
        obtain ⟨⟨B, hB⟩, hg'ne⟩ := hocc
        apply byMatchGroup_none hbt g'
        refine ⟨⟨'y' :: ' ' :: B, ?_⟩, hg'ne⟩
        rw [ht, hRg, hB]
        simp

/-- Claim C2 counterexample: on `"destroyed by baby tank"` the code's
pattern `.*by (.+)$` keys on the rightmost `"by "` — inside the word
`"baby"`, with no preceding space — returning `("tank",)`, while the
clause following the final spaced marker `" by "` is `"baby tank"`; and
on `"1 and 2, destroyed with mines"` the `" with "` marker is present but
the anchored pattern `^with (.+?),` fails, so the result is the absence
value, not a tuple. -/
theorem c2_counterexample :
    containsSub (lit "destroyed by baby tank") (lit " with ") = false
    ∧ containsSub (lit "destroyed by baby tank") (lit " by ") = true
    ∧ CaseParser.causes (lit "destroyed by baby tank") = some [lit "tank"]
    ∧ (afterFinalSpacedBy (lit "destroyed by baby tank")).map series_splitter
        = some [lit "baby tank"]
    ∧ CaseParser.causes (lit "destroyed by baby tank")
        ≠ (afterFinalSpacedBy (lit "destroyed by baby tank")).map series_splitter
    ∧ containsSub (lit "1 and 2, destroyed with mines") (lit " with ") = true
    ∧ CaseParser.causes (lit "1 and 2, destroyed with mines") = none := by
  decide

/-- Claim C2 (amended): `CaseParser.causes` never raises (it is total);
when neither `" with "` nor `" by "` occurs it returns the absence value;
when it returns a tuple, then either `" with "` occurs, the text itself
begins with `"with "` and the tuple is the series-split of the nonempty
clause before the following comma, or `" with "` is absent, `" by "`
occurs, and the tuple is the series-split of the nonempty clause after
the rightmost occurrence of `"by "` (no preceding space required) that
leaves a nonempty clause; consequently, when the marker is present but
the corresponding pattern fails to match, the result is the absence
value, not an exception. -/
theorem c2_causes_amended :
    ∀ text : Str,
      (containsSub text (lit " with ") = false →
        containsSub text (lit " by ") = false → CaseParser.causes text = none)
      ∧ (∀ items, CaseParser.causes text = some items →
          (containsSub text (lit " with ") = true
            ∧ ∃ g rest, text = lit "with " ++ g ++ [','] ++ rest ∧ g ≠ []
                ∧ items = series_splitter g)
          ∨ (containsSub text (lit " with ") = false
            ∧ containsSub text (lit " by ") = true
            ∧ ∃ g, OccBy text g ∧ (∀ g', ¬ OccBy g g') ∧ items = series_splitter g)) := by
  intro text
  constructor
  · intro h1 h2
    have h1' : ¬ containsSub text (lit " with ") = true := by
      rw [h1]
      simp
    have h2' : ¬ containsSub text (lit " by ") = true := by
      rw [h2]
      simp
    rw [CaseParser.causes, if_neg h1', if_neg h2']
  · intro items h
    by_cases hw : containsSub text (lit " with ") = true
    · left
      rw [CaseParser.causes, if_pos hw, Option.map_eq_some'] at h
      obtain ⟨g, hg, hgi⟩ := h
      obtain ⟨rest, hdec, hne⟩ := withMatchGroup_some hg
      exact ⟨hw, g, rest, hdec, hne, hgi.symm⟩
    · have hw' : containsSub text (lit " with ") = false := by
        cases hxb : containsSub text (lit " with ")
        · rfl
        · exact absurd hxb hw
      by_cases hb : containsSub text (lit " by ") = true
      · right
        rw [CaseParser.causes, if_neg hw, if_pos hb, Option.map_eq_some'] at h
        obtain ⟨g, hg, hgi⟩ := h
        obtain ⟨hocc, hfin⟩ := byMatchGroup_some hg
        exact ⟨hw', hb, g, hocc, hfin, hgi.symm⟩
      · rw [CaseParser.causes, if_neg hw, if_neg hb] at h
        cases h

theorem c2_witness :
    (containsSub (lit "6, destroyed by shelling") (lit " with ") = true
      ∧ ∃ g rest, lit "6, destroyed by shelling" = lit "with " ++ g ++ [','] ++ rest
          ∧ g ≠ [] ∧ [lit "shelling"] = series_splitter g)
    ∨ (containsSub (lit "6, destroyed by shelling") (lit " with ") = false
      ∧ containsSub (lit "6, destroyed by shelling") (lit " by ") = true
      ∧ ∃ g, OccBy (lit "6, destroyed by shelling") g ∧ (∀ g', ¬ OccBy g g')
          ∧ [lit "shelling"] = series_splitter g) :=
  (c2_causes_amended (lit "6, destroyed by shelling")).2 [lit "shelling"] (by decide)

/-! ## Claim C7: unrecognized selector is fatal -/

/-- Claim C7: for every source-selector value other than `'ukraine'` and
`'russia'`, the parser chain (`OryxParser.categories`, called by the
`cases` generator before any yield and outside every per-category `try`)
raises `ValueError`; the error propagates through the correction and
validation wrappers, so the run aborts with no record stream and no
validation summary — the pipeline result is the error, not a
records/summary pair. -/
theorem c7_invalid_selector_fatal :
    ∀ (perCat : Str → List Case) (headerKeep : Str → Bool) (rules : List Rule)
      (doc : List (List Str)) (sel : Str),
      sel ≠ lit "ukraine" → sel ≠ lit "russia" →
      casesPipeline perCat headerKeep rules doc sel
        = .error (.valueError (lit "Not a valid belligerent: " ++ sel)) := by
  intro perCat headerKeep rules doc sel h1 h2
  rw [casesPipeline, casesRaw, categories, if_neg h1, if_neg h2]

theorem c7_witness :
    casesPipeline (fun _ => []) (fun _ => false) [] [] (lit "belarus")
      = .error (.valueError (lit "Not a valid belligerent: " ++ lit "belarus")) :=
  c7_invalid_selector_fatal (fun _ => []) (fun _ => false) [] [] (lit "belarus")
    (by decide) (by decide)

/-! ## Claim C9: per-run state freshness -/

theorem getD_concat_self {α : Type} : ∀ (l : List α) (x d : α),
    (l ++ [x]).getD l.length d = x := by
  intro l x d
  induction l with
  | nil => rfl
  | cons a t ih =>
    simp only [List.cons_append, List.length_cons, List.getD_cons_succ]
    exact ih

theorem getD_set_self {α : Type} : ∀ (l : List α) (a : Nat) (x d : α), a < l.length →
    (l.set a x).getD a d = x := by
  intro l
  induction l with
  | nil =>
    intro a x d h
    simp at h
  | cons b t ih =>
    intro a x d h
    cases a with
    | zero => rfl
    | succ a' =>
      simp only [List.set_cons_succ, List.getD_cons_succ]
      exact ih a' x d (by simpa using h)

theorem getD_set_ne {α : Type} : ∀ (l : List α) (a b : Nat) (x d : α), a ≠ b →
    (l.set a x).getD b d = l.getD b d := by
  intro l
  induction l with
  | nil =>
    intro a b x d _
    simp [List.set]
  | cons c t ih =>
    intro a b x d hab
    cases a with
    | zero =>
      cases b with
      | zero => exact absurd rfl hab
      | succ b' => rfl
    | succ a' =>
      cases b with
      | zero => rfl
      | succ b' =>
        simp only [List.set_cons_succ, List.getD_cons_succ]
        exact ih a' b' x d (fun h => hab (by rw [h]))

theorem autoidStore_spec :
    ∀ (l : List Case) (st : Store) (a : Nat), a < st.counterCells.length →
      (autoidStore a st l).1 = autoidFrom (st.counterCells.getD a (fun _ => 1)) l
      ∧ (autoidStore a st l).2.counterCells.length = st.counterCells.length
      ∧ (autoidStore a st l).2.trackerCells = st.trackerCells := by
  intro l
  induction l with
  | nil =>
    intro st a _
    exact ⟨rfl, rfl, rfl⟩
  | cons c rest ih =>
    intro st a ha
    have ha' : a < (autoidStep a c st).counterCells.length := by
      simpa [autoidStep] using ha
    obtain ⟨ih1, ih2, ih3⟩ := ih (autoidStep a c st) a ha'
    refine ⟨?_, ?_, ?_⟩
    · simp only [autoidStore, autoidFrom]
      rw [ih1]
      congr 1
      simp only [autoidStep]
      exact congrArg (fun f => autoidFrom f rest) (getD_set_self _ a _ _ ha)
    · simp only [autoidStore]
      rw [ih2]
      simp [autoidStep]
    · simp only [autoidStore]
      rw [ih3]
      simp [autoidStep]

theorem validateStore_spec (rules : List Rule) (a : Nat) :
    ∀ (l : List Case) (st : Store),
      (validateStore rules a st l).1
        = l.filter (fun c => (rbValidate rules c).isNone) := by
  intro l
  induction l with
  | nil => intro st; simp [validateStore]
  | cons c rest ih =>
    intro st
    rw [validateStore]
    cases hv : rbValidate rules c with
    | some e => simp [hv, List.filter_cons, ih]
    | none => simp [hv, List.filter_cons, ih]

theorem pipelineRunStore_fst (rules : List Rule) (st : Store) (l : List Case) :
    (pipelineRunStore rules st l).1
      = (correctedCases l).filter (fun c => (rbValidate rules c).isNone) := by
  rw [pipelineRunStore]
  set l1 := l.map set_attachments1 with hl1
  set st1 : Store := { st with counterCells := st.counterCells ++ [fun _ => 1] } with hst1
  have ha : st.counterCells.length < st1.counterCells.length := by
    rw [hst1]
    simp
  obtain ⟨h1, _, _⟩ := autoidStore_spec l1 st1 st.counterCells.length ha
  have hfresh : st1.counterCells.getD st.counterCells.length (fun _ => 1) = (fun _ => 1) := by
    rw [hst1]
    exact getD_concat_self _ _ _
  rw [validateStore_spec, h1, hfresh, correctedCases, autoid]

/-- Claim C9: the renumbering counters and the validation reason
accumulator are freshly allocated on every invocation (modelled by the
explicit allocation in `pipelineRunStore`), so running the corrected and
validated stream twice on equal inputs — the second run starting from the
store the first run left behind — yields identical output record
sequences: both equal the pure pipeline value, which is independent of
any pre-existing store contents. -/
theorem c9_two_run_determinism :
    ∀ (rules : List Rule) (st : Store) (l : List Case),
      (pipelineRunStore rules st l).1
        = (pipelineRunStore rules (pipelineRunStore rules st l).2 l).1
      ∧ (pipelineRunStore rules st l).1
        = (correctedCases l).filter (fun c => (rbValidate rules c).isNone) := by
  intro rules st l
  constructor
  · rw [pipelineRunStore_fst, pipelineRunStore_fst]
  · exact pipelineRunStore_fst rules st l

theorem c9_witness :
    (pipelineRunStore [] { counterCells := [], trackerCells := [] }
        [mkCase (lit "A"), mkCase (lit "A")]).1
      = (pipelineRunStore []
          (pipelineRunStore [] { counterCells := [], trackerCells := [] }
            [mkCase (lit "A"), mkCase (lit "A")]).2
          [mkCase (lit "A"), mkCase (lit "A")]).1 :=
  (c9_two_run_determinism [] { counterCells := [], trackerCells := [] }
    [mkCase (lit "A"), mkCase (lit "A")]).1

/-! ## Claim C4: country inference -/

theorem all_take_of_le_takeWhile {p : Char → Bool} {x : Str} {k : Nat}
    (hk : k ≤ (x.takeWhile p).length) : ∀ a ∈ x.take k, p a = true := by
  intro a ha
  have hx : x.take k = (x.takeWhile p).take k := by
    conv_lhs => rw [← List.takeWhile_append_dropWhile p x]
    exact List.take_append_of_le_length hk
  rw [hx] at ha
  exact List.mem_takeWhile_imp (List.mem_of_mem_take ha)

theorem qualifierSearch_some {C r c : Str}
    (h : EquipmentModelP.qualifierSearch C r = some c) :
    c = C ∧ ∃ D E, D ≠ [] ∧ E ≠ [] ∧ r = D ++ lit ".svg/" ++ E := by
  rw [EquipmentModelP.qualifierSearch] at h
  obtain ⟨j, hj, hcond⟩ := firstSome_eq_some h
  obtain ⟨hc, heq⟩ := ite_some_elim hcond
  obtain ⟨hpfx, hne⟩ := hc
  obtain ⟨j0, hj0, hjj⟩ := List.mem_map.mp hj
  have hj0r : j0 < r.length := List.mem_range.mp hj0
  have hj1 : 1 ≤ j := by omega
  obtain ⟨R, hR⟩ := isPrefixOf_iff_exists.mp hpfx
  have hjr : j ≤ r.length := by omega
  have hRE : R = r.drop (j + 5) := by
    have hdd : (r.drop j).drop 5 = r.drop (j + 5) := by
      rw [List.drop_drop, Nat.add_comm]
    rw [← hdd, hR]
    have h5 : (lit ".svg/").length = 5 := rfl
    rw [← h5]
    exact (List.drop_left _ R).symm
  refine ⟨(Option.some.inj heq).symm, r.take j, r.drop (j + 5), ?_, hne, ?_⟩
  · have hlen : (r.take j).length = j := by
      rw [List.length_take]
      omega
    intro hnil
    rw [hnil] at hlen
    simp only [List.length_nil] at hlen
    omega
  · calc r = r.take j ++ r.drop j := (List.take_append_drop j r).symm
      _ = r.take j ++ (lit ".svg/" ++ r.drop (j + 5)) := by rw [hR, hRE]
      _ = r.take j ++ lit ".svg/" ++ r.drop (j + 5) := by rw [List.append_assoc]

theorem absentCheck_some {C rest c : Str}
    (h : EquipmentModelP.absentCheck C rest = some c) :
    c = C ∧ ∃ E, E ≠ [] ∧ rest = lit ".svg/" ++ E := by
  rw [EquipmentModelP.absentCheck] at h
  obtain ⟨⟨hpfx, hne⟩, heq⟩ := ite_some_elim h
  obtain ⟨R, hR⟩ := isPrefixOf_iff_exists.mp hpfx
  have hRE : R = rest.drop 5 := by
    rw [hR]
    have h5 : (lit ".svg/").length = 5 := rfl
    rw [← h5]
    exact (List.drop_left _ R).symm
  refine ⟨(Option.some.inj heq).symm, rest.drop 5, hne, ?_⟩
  rw [← hRE]
  exact hR

theorem qualifierTry_some {C rest c : Str}
    (h : EquipmentModelP.qualifierTry C rest = some c) :
    ∃ r, rest = '_' :: r ∧ EquipmentModelP.qualifierSearch C r = some c := by
  cases rest with
  | nil =>
    rw [EquipmentModelP.qualifierTry] at h
    cases h
  | cons c0 r =>
    rw [EquipmentModelP.qualifierTry] at h
    by_cases hc0 : c0 = '_'
    · rw [if_pos hc0] at h
      exact ⟨r, by rw [hc0], h⟩
    · rw [if_neg hc0] at h
      cases h

theorem countryInner_some {s0 c : Str} {k : Nat}
    (hk1 : 1 ≤ k) (hk2 : k ≤ (s0.takeWhile EquipmentModelP.isWordChar).length)
    (h : EquipmentModelP.countryInner s0 k = some c) :
    c ≠ [] ∧ (∀ ch ∈ c, EquipmentModelP.isWordChar ch = true)
    ∧ ∃ q E, (q = [] ∨ ∃ D, D ≠ [] ∧ q = '_' :: D) ∧ E ≠ []
        ∧ s0 = c ++ (q ++ (lit ".svg/" ++ E)) := by
  have hks : k ≤ s0.length :=
    le_trans hk2 (List.takeWhile_sublist EquipmentModelP.isWordChar).length_le
  have hsplit : s0 = s0.take k ++ s0.drop k := (List.take_append_drop k s0).symm
  have hcne : s0.take k ≠ [] := by
    have hlen : (s0.take k).length = k := by
      rw [List.length_take]
      omega
    intro hnil
    rw [hnil] at hlen
    simp only [List.length_nil] at hlen
    omega
  have hword : ∀ a ∈ s0.take k, EquipmentModelP.isWordChar a = true :=
    all_take_of_le_takeWhile hk2
  rw [EquipmentModelP.countryInner] at h
  cases hq : EquipmentModelP.qualifierTry (s0.take k) (s0.drop k) with
  | some c1 =>
    simp only [hq] at h
    have hc1 : c1 = c := Option.some.inj h
    subst hc1
    obtain ⟨r, hrest, hqs⟩ := qualifierTry_some hq
    obtain ⟨hcC, D, E, hD, hE, hr⟩ := qualifierSearch_some hqs
    subst hcC
    refine ⟨hcne, hword, '_' :: D, E, Or.inr ⟨D, hD, rfl⟩, hE, ?_⟩
    calc s0 = s0.take k ++ s0.drop k := hsplit
      _ = s0.take k ++ ('_' :: (D ++ lit ".svg/" ++ E)) := by rw [hrest, hr]
      _ = s0.take k ++ ('_' :: D ++ (lit ".svg/" ++ E)) := by simp
  | none =>
    simp only [hq] at h
    obtain ⟨hcC, E, hE, hrest⟩ := absentCheck_some h
    subst hcC
    refine ⟨hcne, hword, [], E, Or.inl rfl, hE, ?_⟩
    calc s0 = s0.take k ++ s0.drop k := hsplit
      _ = s0.take k ++ (lit ".svg/" ++ E) := by rw [hrest]
      _ = s0.take k ++ ([] ++ (lit ".svg/" ++ E)) := by simp

theorem countryAt_some {s0 c : Str} (h : EquipmentModelP.countryAt s0 = some c) :
    c ≠ [] ∧ (∀ ch ∈ c, EquipmentModelP.isWordChar ch = true)
    ∧ ∃ q E, (q = [] ∨ ∃ D, D ≠ [] ∧ q = '_' :: D) ∧ E ≠ []
        ∧ s0 = c ++ (q ++ (lit ".svg/" ++ E)) := by
  rw [EquipmentModelP.countryAt] at h
  obtain ⟨d, hd, hinner⟩ := firstSome_eq_some h
  have hdlt : d < (s0.takeWhile EquipmentModelP.isWordChar).length := List.mem_range.mp hd
  exact countryInner_some (by omega) (by omega) hinner

theorem matchTail_some {s0 c : Str} (h : EquipmentModelP.matchTail s0 = some c) :
    ∃ t mid, (t = [] ∨ t = lit "the_") ∧ s0 = t ++ mid
      ∧ EquipmentModelP.countryAt mid = some c := by
  rw [EquipmentModelP.matchTail] at h
  by_cases hp : (lit "the_").isPrefixOf s0 = true
  · rw [if_pos hp] at h
    obtain ⟨R, hR⟩ := isPrefixOf_iff_exists.mp hp
    have hdrop : s0.drop 4 = R := by
      rw [hR]
      have h4 : (lit "the_").length = 4 := rfl
      rw [← h4]
      exact List.drop_left _ R
    cases hc : EquipmentModelP.countryAt (s0.drop 4) with
    | some c1 =>
      simp only [hc] at h
      exact ⟨lit "the_", R, Or.inr rfl, hR, by rw [← hdrop, hc, h]⟩
    | none =>
      simp only [hc] at h
      exact ⟨[], s0, Or.inl rfl, by simp, h⟩
  · rw [if_neg hp] at h
    exact ⟨[], s0, Or.inl rfl, by simp, h⟩

theorem flagMatch_some {url c : Str} (h : EquipmentModelP.flagMatch url = some c) :
    EquipmentModelP.HasFlagMarkerWith url c := by
  rw [EquipmentModelP.flagMatch] at h
  obtain ⟨d, hd, hcond⟩ := firstSome_eq_some h
  have hdlt : d < url.length := List.mem_range.mp hd
  obtain ⟨hpfx, hmt⟩ := ite_some_elim hcond
  obtain ⟨R0, hR0⟩ := isPrefixOf_iff_exists.mp hpfx
  have hi1 : 1 ≤ url.length - d := by omega
  have hR0' : url.drop (url.length - d + 9) = R0 := by
    have hdd : (url.drop (url.length - d)).drop 9 = url.drop (url.length - d + 9) := by
      rw [List.drop_drop, Nat.add_comm]
    rw [← hdd, hR0]
    have h9 : (lit "/Flag_of_").length = 9 := rfl
    rw [← h9]
    exact List.drop_left _ R0
  rw [hR0'] at hmt
  obtain ⟨t, mid, ht, hmid, hcc⟩ := matchTail_some hmt
  obtain ⟨hcne, hword, q, E, hq, hE, hdec⟩ := countryAt_some hcc
  have hile : url.length - d ≤ url.length := by omega
  have hAne : url.take (url.length - d) ≠ [] := by
    have hlen : (url.take (url.length - d)).length = url.length - d := by
      rw [List.length_take]
      omega
    intro hnil
    rw [hnil] at hlen
    simp only [List.length_nil] at hlen
    omega
  refine ⟨hcne, hword, url.take (url.length - d), t, q, E, hAne, hE, ht, hq, ?_⟩
  calc url = url.take (url.length - d) ++ url.drop (url.length - d) :=
        (List.take_append_drop _ url).symm
    _ = url.take (url.length - d) ++ (lit "/Flag_of_" ++ (t ++ (c ++ (q ++ (lit ".svg/" ++ E))))) := by
        rw [hR0, hmid, hdec]
    _ = url.take (url.length - d) ++ lit "/Flag_of_" ++ t ++ c ++ q ++ lit ".svg/" ++ E := by
        simp [List.append_assoc]

set_option maxRecDepth 10000 in
/-- Claim C4: `country_of_production` on the Soviet-Union flag URL yields
`"soviet union"`; whenever the pattern matches, the result is the matched
country token — a token sitting in marker position in the URL (optional
`"the_"` prefix, optional trailing qualifier, before the `".svg/"`
marker) — with underscores replaced by spaces and lowercased; and on any
URL with no recognizable marker the result is the absence value `none`
(the `AttributeError` is caught), not an exception. -/
theorem c4_country_inference :
    EquipmentModelP.country_of_production EquipmentModelP.sovietUrl
        = some (lit "soviet union")
    ∧ (∀ url c, EquipmentModelP.flagMatch url = some c →
        EquipmentModelP.HasFlagMarkerWith url c
        ∧ EquipmentModelP.country_of_production url
            = some (EquipmentModelP.countryTransform c))
    ∧ (∀ url, ¬ EquipmentModelP.HasFlagMarker url →
        EquipmentModelP.country_of_production url = none) := by
  refine ⟨by decide, fun url c h => ⟨flagMatch_some h, ?_⟩, fun url h => ?_⟩
  · rw [EquipmentModelP.country_of_production, h]
    rfl
  · cases hf : EquipmentModelP.flagMatch url with
    | none =>
      rw [EquipmentModelP.country_of_production, hf]
      rfl
    | some c => exact absurd ⟨c, flagMatch_some hf⟩ h

set_option maxRecDepth 10000 in
theorem c4_witness :
    EquipmentModelP.HasFlagMarkerWith EquipmentModelP.sovietUrl (lit "Soviet_Union")
    ∧ EquipmentModelP.country_of_production EquipmentModelP.sovietUrl
        = some (EquipmentModelP.countryTransform (lit "Soviet_Union")) :=
  c4_country_inference.2.1 EquipmentModelP.sovietUrl (lit "Soviet_Union") (by decide)
